import Mathlib

/-!
Verification of the `strlearn.streams.StreamGenerator` data-stream generator.

The Python class is shallowly embedded here.  Floating-point values are
modelled as rationals; the external sampling oracle (`make_classification`)
and the logistic CDF (`scipy.stats.logistic.cdf`) are external collaborators
and appear as function parameters.  The two `np.random.rand` draws made
during materialisation read the *global* numpy RNG, which is not derived
from the generator's `random_state`; they are therefore modelled as explicit
inputs (`conceptNoise`, `balanceNoise`) to the materialisation step.
-/

set_option maxRecDepth 4000

/-- C-style truncation toward zero, the behaviour of numpy's `astype(int)`
on a float value. -/
def truncInt (q : ℚ) : ℤ :=
  if 0 ≤ q then ⌊q⌋ else ⌈q⌉

/-- `np.linspace(a, b, num)` with endpoint: `num` evenly spaced values from
`a` to `b`. -/
def npLinspace (a b : ℚ) (num : ℕ) : List ℚ :=
  if num = 0 then []
  else if num = 1 then [a]
  else (List.range num).map fun (k : ℕ) => a + ((b - a) * (k : ℚ)) / ((num - 1 : ℕ) : ℚ)

/-- Row `k` of the `n × n` identity matrix
(`np.diag(np.diag(np.ones((n, n))))` in the source): the per-class weight
vector passed to the sampling oracle. -/
def oneHot (n k : ℕ) : List ℚ :=
  (List.range n).map fun j => if j = k then (1 : ℚ) else 0

/-- Length of the result of broadcasting two one-dimensional numpy arrays of
lengths `a` and `b`; `none` when the shapes are incompatible.  A dimension of
size 1 broadcasts against any other size (including 0). -/
def bLen (a b : ℕ) : Option ℕ :=
  if a = b then some a
  else if a = 1 then some b
  else if b = 1 then some a
  else none

/-- Index into a possibly-broadcast axis of length `len`: a size-1 axis is
read at position 0 regardless of the target position. -/
def bIdx (len j : ℕ) : ℕ :=
  if len = 1 then 0 else j

/-- Elementwise strict comparison of two equal-length lists. -/
def zipLtBool : List ℚ → List ℚ → List Bool
  | x :: xs, y :: ys => decide (x < y) :: zipLtBool xs ys
  | _, _ => []

/-- Elementwise `<` of two one-dimensional numpy arrays, with numpy's
broadcasting of size-1 axes; `none` models the `ValueError` raised on
incompatible shapes. -/
def bcastLt (a b : List ℚ) : Option (List Bool) :=
  if a.length = b.length then some (zipLtBool a b)
  else
    match a, b with
    | [x], l => some (l.map fun y => decide (x < y))
    | l, [y] => some (l.map fun x => decide (x < y))
    | _, _ => none

/-- Map over a list together with the running position, starting at `j`. -/
def mapWithIdx (f : ℕ → ℕ → ℕ) : ℕ → List ℕ → List ℕ
  | _, [] => []
  | j, v :: vs => f j v :: mapWithIdx f (j + 1) vs

/-- The generator's configuration: the constructor arguments of
`StreamGenerator`. -/
structure StreamConfig where
  n_chunks : ℕ
  chunk_size : ℕ
  random_state : ℤ
  n_drifts : ℕ
  concept_sigmoid_spacing : Option ℚ
  n_classes : ℕ
  reocurring : Bool
  weights : Option (List ℚ ⊕ ℕ × Option ℚ × ℚ)
deriving DecidableEq

/-- `self.n_samples = self.n_chunks * self.chunk_size`. -/
def StreamConfig.n_samples (c : StreamConfig) : ℕ :=
  c.n_chunks * c.chunk_size

/-- The ramps built inside `_sigmoid`: for `i in range(n)`,
`np.linspace(-css if i % 2 else css, css if i % 2 else -css, period)`,
concatenated. -/
def sigmoidRamps (css : ℚ) (period n : ℕ) : List ℚ :=
  ((List.range n).map fun i =>
    npLinspace (if i % 2 = 1 then -css else css)
               (if i % 2 = 1 then css else -css) period).flatten

/-- `StreamGenerator._sigmoid`: returns `(period, probabilities)`.  The
spacing defaults to 9999 when unset; the logistic CDF is the abstract
parameter `cdf`. -/
def sigmoid (cdf : ℚ → ℚ) (css : Option ℚ) (total n : ℕ) : ℕ × List ℚ :=
  let period := if 0 < n then total / n else total
  let s := css.getD 9999
  (period,
    if 0 < n then (sigmoidRamps s period n).map cdf
    else List.replicate total 1)

/-- The initial concept selector
`(self.concept_probabilities < self.concept_noise).astype(int)`. -/
def conceptSelInit (probs noise : List ℚ) : Except Unit (List ℕ) :=
  match bcastLt probs noise with
  | none => .error ()
  | some bs => .ok (bs.map fun b => if b then 1 else 0)

/-- First masked write of the remap loop body: positions inside
`[i*period, (i+1)*period)` whose value is 1 become `i + ((i+1) % 2)`. -/
def remapElem1 (period i j v : ℕ) : ℕ :=
  if i * period ≤ j ∧ j < (i + 1) * period ∧ v = 1 then i + ((i + 1) % 2) else v

/-- Second masked write of the remap loop body: positions inside
`[i*period, (i+1)*period)` whose (possibly already rewritten) value is 0
become `i + (i % 2)`. -/
def remapElem2 (period i j v : ℕ) : ℕ :=
  if i * period ≤ j ∧ j < (i + 1) * period ∧ v = 0 then i + (i % 2) else v

/-- One iteration of the non-reoccurring remap loop: the two masked writes,
performed sequentially as in the source. -/
def remapPass (period i : ℕ) (s : List ℕ) : List ℕ :=
  mapWithIdx (remapElem2 period i) 0 (mapWithIdx (remapElem1 period i) 0 s)

/-- The concept selector after the (conditional) remap loop
`for i in range(1, self.n_drifts)`. -/
def conceptSelFinal (cfg : StreamConfig) (period : ℕ) (sel0 : List ℕ) : List ℕ :=
  if cfg.reocurring then sel0
  else (List.range' 1 (cfg.n_drifts - 1)).foldl (fun s i => remapPass period i s) sel0

/-- The full concept-selector computation of `get_chunk` for `n_drifts > 0`:
sigmoid probabilities thresholded against the concept noise, then remapped
when the drift is not reoccurring. -/
def conceptSelectorTop (cdf : ℚ → ℚ) (cfg : StreamConfig) (cn : List ℚ) :
    Except Unit (List ℕ) :=
  match conceptSelInit
      (sigmoid cdf cfg.concept_sigmoid_spacing cfg.n_samples cfg.n_drifts).2 cn with
  | .error e => .error e
  | .ok s0 =>
      .ok (conceptSelFinal cfg
        (sigmoid cdf cfg.concept_sigmoid_spacing cfg.n_samples cfg.n_drifts).1 s0)

/-- `self.class_selector[mask] = i` for `mask = self.balance_noise > accumulator`. -/
def maskWrite (acc : ℚ) (i : ℤ) : List ℚ → List ℤ → List ℤ
  | x :: xs, v :: vs => (if acc < x then i else v) :: maskWrite acc i xs vs
  | _, _ => []

/-- The loop `for i, treshold in enumerate(self.weights)` of the static
balance mode, carrying the running accumulator and class index. -/
def staticLoop (bn : List ℚ) : ℚ → ℕ → List ℚ → List ℤ → List ℤ
  | _, _, [], sel => sel
  | acc, i, t :: ts, sel => staticLoop bn (acc + t) (i + 1) ts (maskWrite acc i bn sel)

/-- The static weighted class selector: zeros, then one masked write per
weight in ascending class order. -/
def classSelectorStatic (bn ws : List ℚ) : List ℤ :=
  staticLoop bn 0 0 ws (List.replicate bn.length 0)

/-- The amplitude correction applied to the balance probabilities in the
dynamic mode: recenter at 1/2 and scale by the amplitude. -/
def ampCorrect (amp p : ℚ) : ℚ :=
  (p - 1/2) * amp + 1/2

/-- The class (balance) selector of `get_chunk`, one of the three modes
selected by the `weights` configuration. -/
def classSelector (cdf : ℚ → ℚ) (cfg : StreamConfig) (bn : List ℚ) :
    Except Unit (List ℤ) :=
  match cfg.weights with
  | none => .ok (bn.map fun x => truncInt (x * cfg.n_classes))
  | some (.inl ws) => .ok (classSelectorStatic bn ws)
  | some (.inr (nbd, spacing, amp)) =>
      match bcastLt (((sigmoid cdf spacing cfg.n_samples nbd).2).map (ampCorrect amp)) bn with
      | none => .error ()
      | some bs => .ok (bs.map fun b => if b then (1 : ℤ) else 0)

/-- A concept as stored in `self.concepts`: indexed `[class][feature][sample]`
(the oracle's feature matrix is transposed by the source). -/
abbrev Arr3 := List (List (List ℚ))

/-- The concept array built on the first `get_chunk` call: one oracle call
per `(concept, class)` pair, with seed `random_state + i` and a one-hot class
weight vector; `n_drifts + 1` concepts, or 2 when the drift is reoccurring. -/
def buildConcepts (oracle : ℤ → List ℚ → List (List ℚ)) (cfg : StreamConfig) :
    List Arr3 :=
  (List.range (if cfg.reocurring then 2 else cfg.n_drifts + 1)).map fun (i : ℕ) =>
    (List.range cfg.n_classes).map fun (k : ℕ) =>
      oracle (cfg.random_state + (i : ℤ)) (oneHot cfg.n_classes k)

/-- The `(class, feature, sample)` dimensions read off the first concept. -/
def rectDims (cs : List Arr3) : ℕ × ℕ × ℕ :=
  match cs with
  | [] => (0, 0, 0)
  | c :: _ =>
      (c.length,
       match c with | [] => 0 | m0 :: _ => m0.length,
       match c with
       | [] => 0
       | m0 :: _ => match m0 with | [] => 0 | r :: _ => r.length)

/-- Rectangularity of the concept array: `np.array` on the nested list
comprehension requires a homogeneous shape. -/
def rectOk (cs : List Arr3) : Bool :=
  cs.all fun c =>
    c.length == (rectDims cs).1 &&
    c.all fun m0 =>
      m0.length == (rectDims cs).2.1 &&
      m0.all fun r => r.length == (rectDims cs).2.2

/-- `np.choose(self.concept_selector, self.concepts)`: per sample, pick the
active concept's class-conditional feature columns.  The selector and the
concepts' sample axis are broadcast by the numpy rules; a selector entry
out of range of the concept axis raises. -/
def chooseConcepts (sel : List ℕ) (cs : List Arr3) : Except Unit Arr3 :=
  match bLen sel.length (rectDims cs).2.2 with
  | none => .error ()
  | some L =>
      if (List.range L).all
          (fun j => decide (sel.getD (bIdx sel.length j) 0 < cs.length)) then
        .ok ((List.range (rectDims cs).1).map fun cl =>
          (List.range (rectDims cs).2.1).map fun fi =>
            (List.range L).map fun j =>
              ((((cs.getD (sel.getD (bIdx sel.length j) 0) []).getD cl []).getD fi []).getD
                (bIdx (rectDims cs).2.2 j) 0))
      else .error ()

/-- `np.choose(self.class_selector, self.concepts).T`: per sample, pick the
feature column of the sample's class; the result is already transposed to
samples × features as in `self.X`. -/
def chooseX (sel : List ℤ) (c3 : Arr3) : Except Unit (List (List ℚ)) :=
  match bLen sel.length (rectDims [c3]).2.2 with
  | none => .error ()
  | some L =>
      if (List.range L).all
          (fun j => decide (0 ≤ sel.getD (bIdx sel.length j) 0 ∧
                            sel.getD (bIdx sel.length j) 0 < (c3.length : ℤ))) then
        .ok ((List.range L).map fun j =>
          (List.range (rectDims [c3]).2.1).map fun fi =>
            (((c3.getD (sel.getD (bIdx sel.length j) 0).toNat []).getD fi []).getD
              (bIdx (rectDims [c3]).2.2 j) 0))
      else .error ()

/-- The concept-selector stage of materialisation: only run when
`n_drifts > 0`. -/
def selStage (cdf : ℚ → ℚ) (cfg : StreamConfig) (cn : List ℚ) :
    Except Unit (Option (List ℕ)) :=
  if 0 < cfg.n_drifts then
    match conceptSelectorTop cdf cfg cn with
    | .error _ => .error ()
    | .ok s => .ok (some s)
  else .ok none

/-- The concept-assignment stage: `np.choose` through the drift selector when
there are drifts, otherwise `np.squeeze` of the singleton concept axis.  The
squeeze is modelled only when it removes exactly the concept axis, i.e. when
the remaining class, feature and sample axes are not of size 1 (and the drift
is not reoccurring, which would leave two concepts in place). -/
def assembleStage (cs : List Arr3) (selOpt : Option (List ℕ)) : Except Unit Arr3 :=
  match selOpt with
  | some sel => chooseConcepts sel cs
  | none =>
      match cs with
      | [c] =>
          if (rectDims cs).1 ≠ 1 ∧ (rectDims cs).2.1 ≠ 1 ∧ (rectDims cs).2.2 ≠ 1 then
            .ok c
          else .error ()
      | _ => .error ()

/-- The arrays materialised on the first `get_chunk` call. -/
structure MatData where
  X : List (List ℚ)
  y : List ℤ
deriving DecidableEq

/-- The whole first-call materialisation, in source statement order: concept
construction, concept selector, class selector, concept assignment, final
feature matrix.  `cn` and `bn` are the two `np.random.rand(self.n_samples)`
draws from the global RNG. -/
def materialize (cdf : ℚ → ℚ) (oracle : ℤ → List ℚ → List (List ℚ))
    (cfg : StreamConfig) (cn bn : List ℚ) : Except Unit MatData :=
  if rectOk (buildConcepts oracle cfg) then
    match selStage cdf cfg cn with
    | .error _ => .error ()
    | .ok selOpt =>
        match classSelector cdf cfg bn with
        | .error _ => .error ()
        | .ok clsSel =>
            match assembleStage (buildConcepts oracle cfg) selOpt with
            | .error _ => .error ()
            | .ok c3 =>
                match chooseX clsSel c3 with
                | .error _ => .error ()
                | .ok X0 => .ok { X := X0, y := clsSel }
  else .error ()

/-- A returned chunk: `(self.X[start:end], self.y[start:end])`. -/
abbrev Chunk := List (List ℚ) × List ℤ

/-- The mutable state of a generator object.  `fresh` is the object before
the first `get_chunk` call (no `X`, `chunk_id`, … attributes).  In `ready`,
`previous` is the value of the `previous_chunk` attribute (`none` models the
Python value `None`), while `current = none` models the `current_chunk`
attribute not having been set yet. -/
inductive GenState where
  | fresh
  | ready (m : MatData) (chunk_id : ℤ) (previous current : Option Chunk)
deriving DecidableEq

/-- The chunk slice for a given `chunk_id`. -/
def sliceChunk (cfg : StreamConfig) (m : MatData) (cid : ℤ) : Chunk :=
  ((m.X.drop (cfg.chunk_size * cid.toNat)).take cfg.chunk_size,
   (m.y.drop (cfg.chunk_size * cid.toNat)).take cfg.chunk_size)

/-- `StreamGenerator.get_chunk`.  On the first call the stream is
materialised (reading the ambient noise `cn`, `bn`); every call then
increments `chunk_id` and either returns the next slice or `None`.  Reading
the never-assigned `current_chunk` attribute raises. -/
def getChunk (cdf : ℚ → ℚ) (oracle : ℤ → List ℚ → List (List ℚ))
    (cfg : StreamConfig) (cn bn : List ℚ) :
    GenState → Except Unit (GenState × Option Chunk)
  | .fresh =>
      match materialize cdf oracle cfg cn bn with
      | .error _ => .error ()
      | .ok m =>
          let cid : ℤ := -1 + 1
          if cid < (cfg.n_chunks : ℤ) then
            .ok (.ready m cid none (some (sliceChunk cfg m cid)),
                 some (sliceChunk cfg m cid))
          else
            .ok (.ready m cid none none, none)
  | .ready m cid _ cur =>
      match cur with
      | none => .error ()
      | some c =>
          let cid' := cid + 1
          if cid' < (cfg.n_chunks : ℤ) then
            .ok (.ready m cid' (some c) (some (sliceChunk cfg m cid')),
                 some (sliceChunk cfg m cid'))
          else
            .ok (.ready m cid' (some c) (some c), none)

/-- The state and output of the `k`-th `get_chunk` call (0-indexed) on a
fresh generator. -/
def runGet (cdf : ℚ → ℚ) (oracle : ℤ → List ℚ → List (List ℚ))
    (cfg : StreamConfig) (cn bn : List ℚ) : ℕ → Except Unit (GenState × Option Chunk)
  | 0 => getChunk cdf oracle cfg cn bn .fresh
  | k + 1 =>
      match runGet cdf oracle cfg cn bn k with
      | .error e => .error e
      | .ok (s, _) => getChunk cdf oracle cfg cn bn s

/-- `StreamGenerator.is_dry`: false while the `chunk_id` attribute does not
exist, otherwise `chunk_id + 1 >= n_chunks`. -/
def isDry (cfg : StreamConfig) : GenState → Bool
  | .fresh => false
  | .ready _ cid _ _ => decide ((cfg.n_chunks : ℤ) ≤ cid + 1)

instance {ε α : Type} [DecidableEq ε] [DecidableEq α] : DecidableEq (Except ε α) :=
  fun a b =>
    match a, b with
    | .error e, .error f =>
        if h : e = f then .isTrue (by rw [h])
        else .isFalse (fun hc => h (by cases hc; rfl))
    | .ok x, .ok y =>
        if h : x = y then .isTrue (by rw [h])
        else .isFalse (fun hc => h (by cases hc; rfl))
    | .error _, .ok _ => .isFalse (fun hc => Except.noConfusion hc)
    | .ok _, .error _ => .isFalse (fun hc => Except.noConfusion hc)

/-- `npLinspace` always returns exactly `num` values. -/
theorem npLinspace_length (a b : ℚ) (num : ℕ) : (npLinspace a b num).length = num := by
  unfold npLinspace
  split
  next h => simp [h]
  next =>
    split
    next h => simp [h]
    next => rw [List.length_map, List.length_range]

/-- The concatenated ramps have length `n * period`. -/
theorem sigmoidRamps_length (css : ℚ) (period n : ℕ) :
    (sigmoidRamps css period n).length = n * period := by
  unfold sigmoidRamps
  rw [List.length_flatten, List.map_map]
  rw [List.map_congr_left (g := fun _ => period) (by
    intro i _
    simp [Function.comp, npLinspace_length])]
  rw [List.map_const', List.sum_replicate, List.length_range, smul_eq_mul]

/-- C9: `_sigmoid` with `n = 0` returns `period = total` and an all-ones
probability sequence of length `total`; with `n > 0` it returns
`period = total / n` (integer division) and a probability sequence of length
`n * (total / n)`, which falls short of `total` by exactly `total % n`
(at most `n - 1`) whenever `n` does not divide `total`. -/
theorem sigmoid_output_shape (cdf : ℚ → ℚ) (css : Option ℚ) (total n : ℕ) :
    (n = 0 →
      (sigmoid cdf css total n).1 = total ∧
      (sigmoid cdf css total n).2 = List.replicate total 1) ∧
    (0 < n →
      (sigmoid cdf css total n).1 = total / n ∧
      ((sigmoid cdf css total n).2).length = n * (total / n) ∧
      (¬ n ∣ total →
        total - ((sigmoid cdf css total n).2).length = total % n ∧
        total % n ≤ n - 1 ∧
        ((sigmoid cdf css total n).2).length < total)) := by
  constructor
  · rintro rfl
    simp [sigmoid]
  · intro hn
    have hlen : ((sigmoid cdf css total n).2).length = n * (total / n) := by
      simp only [sigmoid, if_pos hn]
      rw [List.length_map, sigmoidRamps_length]
    refine ⟨by simp [sigmoid, if_pos hn], hlen, ?_⟩
    intro hdvd
    have hmod := Nat.div_add_mod total n
    have hmodne : total % n ≠ 0 := fun h0 => hdvd (Nat.dvd_iff_mod_eq_zero.mpr h0)
    have := Nat.mod_lt total hn
    exact ⟨by omega, by omega, by omega⟩

/-- C9 witness: at `total = 5`, `n = 2` the period is 2, the probability
sequence has length 4, and the shortfall is `5 % 2 = 1`. -/
theorem sigmoid_output_shape_witness :
    (sigmoid id none 5 2).1 = 5 / 2 ∧
    ((sigmoid id none 5 2).2).length = 2 * (5 / 2) ∧
    5 - ((sigmoid id none 5 2).2).length = 5 % 2 ∧
    5 % 2 ≤ 2 - 1 ∧
    ((sigmoid id none 5 2).2).length < 5 := by
  have h := (sigmoid_output_shape id none 5 2).2 (by decide)
  exact ⟨h.1, h.2.1, h.2.2 (by decide)⟩

/-- The ramp concatenation as claimed by the specification sentence for C3:
`+spacing → −spacing` on odd periods and `−spacing → +spacing` on even
periods. -/
def rampsClaimC3 (css : ℚ) (period n : ℕ) : List ℚ :=
  ((List.range n).map fun i =>
    npLinspace (if i % 2 = 1 then css else -css)
               (if i % 2 = 1 then -css else css) period).flatten

/-- The ramp concatenation with the direction the code actually uses:
`+spacing → −spacing` on even periods and `−spacing → +spacing` on odd
periods. -/
def rampsAmendedC3 (css : ℚ) (period n : ℕ) : List ℚ :=
  ((List.range n).map fun i =>
    npLinspace (if i % 2 = 0 then css else -css)
               (if i % 2 = 0 then -css else css) period).flatten

/-- C3 counterexample: with one drift (period 0, which is even), spacing 10
and four samples, the probability sequence is not the CDF of the
spec-claimed ramp direction — the single ramp runs from `+10` to `-10`,
not from `-10` to `+10`. -/
theorem ramp_direction_claim_false :
    (sigmoid id (some 10) 4 1).2 ≠
      (rampsClaimC3 10 ((sigmoid id (some 10) 4 1).1) 1).map id := by
  norm_num [sigmoid, sigmoidRamps, rampsClaimC3, npLinspace, List.range_succ]

/-- C3 amended: for every `n > 0` and spacing `s`, the probability sequence
is the (abstract, elementwise) logistic CDF applied to the concatenation of
the `n` linearly spaced ramps of length `period = total / n`, where the ramp
runs from `+s` to `-s` on even periods and from `-s` to `+s` on odd
periods. -/
theorem ramp_direction_amended (cdf : ℚ → ℚ) (css : ℚ) (total n : ℕ)
    (hn : 0 < n) :
    (sigmoid cdf (some css) total n).2 =
      (rampsAmendedC3 css ((sigmoid cdf (some css) total n).1) n).map cdf := by
  have hramps : ∀ period, sigmoidRamps css period n = rampsAmendedC3 css period n := by
    intro period
    unfold sigmoidRamps rampsAmendedC3
    congr 1
    apply List.map_congr_left
    intro i _
    rcases Nat.mod_two_eq_zero_or_one i with h | h <;> simp [h]
  simp only [sigmoid, if_pos hn, Option.getD]
  rw [hramps]

/-- C3 amended witness: at `total = 4`, `n = 2`, spacing 10. -/
theorem ramp_direction_amended_witness :
    (sigmoid id (some 10) 4 2).2 =
      (rampsAmendedC3 10 ((sigmoid id (some 10) 4 2).1) 2).map id :=
  ramp_direction_amended id 10 4 2 (by decide)

/-- `mapWithIdx` preserves length. -/
theorem mapWithIdx_length (f : ℕ → ℕ → ℕ) (j0 : ℕ) (l : List ℕ) :
    (mapWithIdx f j0 l).length = l.length := by
  induction l generalizing j0 with
  | nil => rfl
  | cons v vs ih => simp [mapWithIdx, ih]

/-- Pointwise description of `mapWithIdx`. -/
theorem mapWithIdx_get? (f : ℕ → ℕ → ℕ) (j0 : ℕ) (l : List ℕ) (k : ℕ) :
    (mapWithIdx f j0 l).get? k = (l.get? k).map (f (j0 + k)) := by
  induction l generalizing j0 k with
  | nil => simp [mapWithIdx]
  | cons v vs ih =>
    cases k with
    | zero => simp [mapWithIdx]
    | succ k =>
      simp only [mapWithIdx, List.get?_cons_succ]
      rw [ih (j0 + 1) k, show j0 + 1 + k = j0 + (k + 1) from by omega]

/-- Pointwise description of one remap pass. -/
theorem remapPass_get? (period i : ℕ) (s : List ℕ) (j : ℕ) :
    (remapPass period i s).get? j =
      (s.get? j).map (fun v => remapElem2 period i j (remapElem1 period i j v)) := by
  unfold remapPass
  rw [mapWithIdx_get?, mapWithIdx_get?, Option.map_map]
  simp only [Nat.zero_add]
  rfl

/-- A remap pass leaves positions outside the window `[i*period, (i+1)*period)`
unchanged. -/
theorem remapElem_outside (period i j v : ℕ)
    (h : ¬ (i * period ≤ j ∧ j < (i + 1) * period)) :
    remapElem2 period i j (remapElem1 period i j v) = v := by
  unfold remapElem1 remapElem2
  rw [if_neg (by tauto), if_neg (by tauto)]

/-- Inside the window, a remap pass with `1 ≤ i` sends a binary value to the
remapped concept index of the source loop body. -/
theorem remapElem_inside (period i j v : ℕ) (hi : 1 ≤ i)
    (hw : i * period ≤ j ∧ j < (i + 1) * period) (hv : v = 0 ∨ v = 1) :
    remapElem2 period i j (remapElem1 period i j v) =
      if v = 1 then i + ((i + 1) % 2) else i + (i % 2) := by
  rcases hv with rfl | rfl
  · have h1 : remapElem1 period i j 0 = 0 := by
      unfold remapElem1
      rw [if_neg]
      rintro ⟨-, -, h⟩
      exact absurd h (by omega)
    rw [h1]
    unfold remapElem2
    rw [if_pos ⟨hw.1, hw.2, rfl⟩, if_neg (by omega : ¬ (0 : ℕ) = 1)]
  · have h1 : remapElem1 period i j 1 = i + ((i + 1) % 2) := by
      unfold remapElem1
      rw [if_pos ⟨hw.1, hw.2, rfl⟩]
    rw [h1]
    unfold remapElem2
    rw [if_neg (by rintro ⟨-, -, h⟩; omega), if_pos rfl]

/-- `List.range' s (n+1)` with unit step, as a snoc. -/
theorem range'_snoc (s n : ℕ) : List.range' s (n + 1) = List.range' s n ++ [s + n] := by
  induction n generalizing s with
  | zero => simp [List.range'_succ]
  | succ n ih =>
    rw [List.range'_succ, ih (s + 1), List.range'_succ,
        show s + 1 + n = s + (n + 1) from by omega]
    simp [List.cons_append]

/-- The remap fold leaves a position untouched when it lies in none of the
windows of the processed indices. -/
theorem remapFold_untouched (period : ℕ) (m : ℕ) (s : List ℕ) (j : ℕ)
    (h : ∀ i', i' ∈ List.range' 1 m → ¬ (i' * period ≤ j ∧ j < (i' + 1) * period)) :
    ((List.range' 1 m).foldl (fun t i' => remapPass period i' t) s).get? j = s.get? j := by
  induction m with
  | zero => rfl
  | succ m ih =>
    rw [range'_snoc, List.foldl_append]
    simp only [List.foldl_cons, List.foldl_nil]
    rw [remapPass_get?, ih (fun i' hi' => h i' (by rw [range'_snoc]; exact List.mem_append_left _ hi'))]
    have hout := remapElem_outside period (1 + m) j
    cases hs : s.get? j with
    | none => rfl
    | some v =>
      simp only [Option.map_some']
      rw [hout v (h (1 + m) (by rw [range'_snoc]; simp))]

/-- The remap fold maps a position inside window `i` (for `1 ≤ i ≤ m`) of an
initially binary selector through the loop-body remapping for `i`. -/
theorem remapFold_window (period : ℕ) (m i j : ℕ) (s : List ℕ)
    (hi : 1 ≤ i) (him : i ≤ m)
    (hw : i * period ≤ j ∧ j < (i + 1) * period)
    (hv : ∀ v, s.get? j = some v → v = 0 ∨ v = 1) :
    ((List.range' 1 m).foldl (fun t i' => remapPass period i' t) s).get? j =
      (s.get? j).map (fun v => if v = 1 then i + ((i + 1) % 2) else i + (i % 2)) := by
  induction m with
  | zero => omega
  | succ m ih =>
    rw [range'_snoc, List.foldl_append]
    simp only [List.foldl_cons, List.foldl_nil]
    rw [remapPass_get?]
    rcases Nat.lt_or_ge m i with hmi | hmi
    · -- i = m + 1 : the previous passes do not touch j, the last one remaps it
      have hieq : i = m + 1 := by omega
      rw [remapFold_untouched period m s j (by
        intro i' hi'
        have := List.mem_range'.1 hi'
        intro hcon
        -- i' < i, so the window of i' ends before j
        have h1 : (i' + 1) * period ≤ i * period := by
          apply Nat.mul_le_mul_right
          omega
        omega)]
      cases hs : s.get? j with
      | none => rfl
      | some v =>
        simp only [Option.map_some']
        rw [remapElem_inside period (1 + m) j v (by omega) (by rw [show 1 + m = i by omega]; exact hw) (hv v hs)]
        congr 1 <;> rw [show 1 + m = i by omega]
    · -- i ≤ m : the inner fold already remapped j; the last pass misses it
      rw [ih hmi]
      cases hs : s.get? j with
      | none => rfl
      | some v =>
        simp only [Option.map_some']
        rw [remapElem_outside period (1 + m) j _ (by
          intro hcon
          -- j < (i+1)*period ≤ (1+m)*period
          have h1 : (i + 1) * period ≤ (1 + m) * period := by
            apply Nat.mul_le_mul_right
            omega
          omega)]

/-- Pointwise description of the elementwise comparison. -/
theorem zipLtBool_get? :
    ∀ (a b : List ℚ) (j : ℕ) (p x : ℚ), a.get? j = some p → b.get? j = some x →
      (zipLtBool a b).get? j = some (decide (p < x)) := by
  intro a
  induction a with
  | nil => intro b j p x hp; simp at hp
  | cons q qs ih =>
    intro b j p x hp hx
    cases b with
    | nil => simp at hx
    | cons r rs =>
      cases j with
      | zero =>
        simp only [List.get?_cons_zero, Option.some.injEq] at hp hx
        simp [zipLtBool, hp, hx]
      | succ j =>
        simp only [List.get?_cons_succ] at hp hx
        simpa [zipLtBool] using ih rs j p x hp hx

/-- With equal lengths the comparison broadcast is the plain elementwise
comparison and the initial concept selector is defined. -/
theorem conceptSelInit_eq (probs noise : List ℚ) (hlen : probs.length = noise.length) :
    conceptSelInit probs noise =
      .ok ((zipLtBool probs noise).map fun b => if b then 1 else 0) := by
  unfold conceptSelInit bcastLt
  rw [if_pos hlen]

/-- Values of a 0/1-mapped boolean list are binary. -/
theorem boolMap_binary (bs : List Bool) (j v : ℕ)
    (h : (bs.map fun b => if b then 1 else 0).get? j = some v) : v = 0 ∨ v = 1 := by
  rw [List.get?_map] at h
  cases hj : bs.get? j with
  | none => rw [hj] at h; simp at h
  | some b =>
    rw [hj] at h
    simp only [Option.map_some', Option.some.injEq] at h
    cases b <;> simp at h <;> omega

/-- Any successfully computed initial concept selector is binary. -/
theorem conceptSelInit_binary (probs noise : List ℚ) (s0 : List ℕ)
    (h : conceptSelInit probs noise = .ok s0) : ∀ v ∈ s0, v = 0 ∨ v = 1 := by
  unfold conceptSelInit at h
  cases hb : bcastLt probs noise with
  | none => rw [hb] at h; exact absurd h (by simp)
  | some bs =>
    rw [hb] at h
    simp only [Except.ok.injEq] at h
    subst h
    intro v hv
    obtain ⟨j, hj⟩ := List.mem_iff_get?.1 hv
    exact boolMap_binary bs j v hj

/-- A sample index inside a window determines the window. -/
theorem window_div (period i' j : ℕ) (hp : 0 < period)
    (h1 : i' * period ≤ j) (h2 : j < (i' + 1) * period) : j / period = i' := by
  have ha : i' ≤ j / period := (Nat.le_div_iff_mul_le hp).mpr h1
  have hb : j / period < i' + 1 := (Nat.div_lt_iff_lt_mul hp).mpr h2
  omega

/-- The quotient's own window contains the index. -/
theorem div_window (period j : ℕ) (hp : 0 < period) :
    (j / period) * period ≤ j ∧ j < (j / period + 1) * period := by
  have h1 := Nat.div_add_mod j period
  have h2 := Nat.mod_lt j hp
  constructor
  · calc (j / period) * period = period * (j / period) := by ring
    _ ≤ j := by omega
  · calc j < period * (j / period) + period := by omega
    _ = (j / period + 1) * period := by ring

/-- Every value of the final concept selector is at most `n_drifts`, given a
binary initial selector. -/
theorem conceptSelFinal_le (cfg : StreamConfig) (period : ℕ) (sel0 : List ℕ)
    (hd : 0 < cfg.n_drifts) (h01 : ∀ v ∈ sel0, v = 0 ∨ v = 1) :
    ∀ v ∈ conceptSelFinal cfg period sel0, v ≤ cfg.n_drifts := by
  intro v hv
  unfold conceptSelFinal at hv
  by_cases hre : cfg.reocurring
  · rw [if_pos hre] at hv
    rcases h01 v hv with rfl | rfl <;> omega
  · rw [if_neg hre] at hv
    obtain ⟨j, hj⟩ := List.mem_iff_get?.1 hv
    have hbin : ∀ w, sel0.get? j = some w → w = 0 ∨ w = 1 := by
      intro w hw
      exact h01 w (List.mem_iff_get?.2 ⟨j, hw⟩)
    by_cases hp : 0 < period
    · rcases Nat.lt_or_ge (j / period) 1 with hi0 | hi1
      · -- j lies before every window: untouched
        rw [remapFold_untouched period _ sel0 j (by
          intro i' hi' hcon
          have hm := List.mem_range'.1 hi'
          have : j / period = i' := window_div period i' j hp hcon.1 hcon.2
          omega)] at hj
        rcases hbin v hj with rfl | rfl <;> omega
      · rcases Nat.lt_or_ge (j / period) cfg.n_drifts with hin | hout
        · -- j lies in window i = j / period with 1 ≤ i < n_drifts
          have hw := div_window period j hp
          rw [remapFold_window period (cfg.n_drifts - 1) (j / period) j sel0 hi1
            (by omega) hw hbin] at hj
          cases hs : sel0.get? j with
          | none => rw [hs] at hj; simp at hj
          | some v0 =>
            rw [hs] at hj
            simp only [Option.map_some', Option.some.injEq] at hj
            have h2 : (j / period + 1) % 2 ≤ 1 := by omega
            have h3 : (j / period) % 2 ≤ 1 := by omega
            rcases hbin v0 hs with rfl | rfl <;> subst hj <;> split <;> omega
        · -- j lies after every window: untouched
          rw [remapFold_untouched period _ sel0 j (by
            intro i' hi' hcon
            have hm := List.mem_range'.1 hi'
            have : j / period = i' := window_div period i' j hp hcon.1 hcon.2
            omega)] at hj
          rcases hbin v hj with rfl | rfl <;> omega
    · -- period = 0 : every window is empty, nothing is remapped
      have hper0 : period = 0 := by omega
      subst hper0
      rw [remapFold_untouched 0 _ sel0 j (by
        intro i' hi' hcon
        have h2 := hcon.2
        simp at h2)] at hj
      rcases hbin v hj with rfl | rfl <;> omega

/-- C2: for `n_drifts > 0` (and compatible lengths, i.e. the elementwise
comparison is the plain one), the initial selector is 1 exactly where
`probability[j] < noise[j]`; in non-reoccurring mode every sample of period
`i = 1..n_drifts-1` is remapped to `i + ((i+1) % 2)` if it selected 1 and to
`i + (i % 2)` if it selected 0; and every final selector value lies in
`[0, n_drifts]`. -/
theorem concept_selector_construction (cdf : ℚ → ℚ) (cfg : StreamConfig) (cn : List ℚ)
    (hd : 0 < cfg.n_drifts)
    (hlen : ((sigmoid cdf cfg.concept_sigmoid_spacing cfg.n_samples cfg.n_drifts).2).length
            = cn.length) :
    ∃ sel0,
      conceptSelInit (sigmoid cdf cfg.concept_sigmoid_spacing cfg.n_samples cfg.n_drifts).2 cn
        = .ok sel0 ∧
      conceptSelectorTop cdf cfg cn
        = .ok (conceptSelFinal cfg
            (sigmoid cdf cfg.concept_sigmoid_spacing cfg.n_samples cfg.n_drifts).1 sel0) ∧
      (∀ j p x,
        ((sigmoid cdf cfg.concept_sigmoid_spacing cfg.n_samples cfg.n_drifts).2).get? j = some p →
        cn.get? j = some x →
        sel0.get? j = some (if p < x then 1 else 0)) ∧
      (cfg.reocurring = false →
        ∀ i j v0, 1 ≤ i → i < cfg.n_drifts →
          i * (sigmoid cdf cfg.concept_sigmoid_spacing cfg.n_samples cfg.n_drifts).1 ≤ j →
          j < (i + 1) * (sigmoid cdf cfg.concept_sigmoid_spacing cfg.n_samples cfg.n_drifts).1 →
          sel0.get? j = some v0 →
          (conceptSelFinal cfg
              (sigmoid cdf cfg.concept_sigmoid_spacing cfg.n_samples cfg.n_drifts).1 sel0).get? j
            = some (if v0 = 1 then i + ((i + 1) % 2) else i + (i % 2))) ∧
      (∀ v ∈ conceptSelFinal cfg
          (sigmoid cdf cfg.concept_sigmoid_spacing cfg.n_samples cfg.n_drifts).1 sel0,
        v ≤ cfg.n_drifts) := by
  refine ⟨_, conceptSelInit_eq _ _ hlen, ?_, ?_, ?_, ?_⟩
  · unfold conceptSelectorTop
    rw [conceptSelInit_eq _ _ hlen]
  · intro j p x hp hx
    rw [List.get?_map, zipLtBool_get? _ _ j p x hp hx]
    simp only [Option.map_some', Option.some.injEq]
    by_cases h : p < x
    · rw [if_pos h, if_pos (by simpa using h)]
    · rw [if_neg h, if_neg (by simpa using h)]
  · intro hre i j v0 hi hin h1 h2 hs
    unfold conceptSelFinal
    rw [hre]
    simp only [Bool.false_eq_true, if_false]
    rw [remapFold_window _ (cfg.n_drifts - 1) i j _ hi (by omega) ⟨h1, h2⟩
      (fun w hw => boolMap_binary _ j w hw), hs]
    rfl
  · exact conceptSelFinal_le cfg _ _ hd
      (conceptSelInit_binary _ _ _ (conceptSelInit_eq _ _ hlen))

/-- A concrete drifting configuration: 2 chunks of 2 samples, 2 drifts. -/
def cfgC2 : StreamConfig :=
  { n_chunks := 2, chunk_size := 2, random_state := 0, n_drifts := 2,
    concept_sigmoid_spacing := some 10, n_classes := 2, reocurring := false,
    weights := none }

/-- Concrete concept noise for the witness. -/
def cnC2 : List ℚ := [1/2, 1/2, 1/2, 1/2]

/-- C2 witness: the hypotheses hold at the concrete configuration `cfgC2`. -/
theorem concept_selector_construction_witness :
    0 < cfgC2.n_drifts ∧
    ((sigmoid id cfgC2.concept_sigmoid_spacing cfgC2.n_samples cfgC2.n_drifts).2).length
      = cnC2.length ∧
    (∃ sel0,
      conceptSelInit (sigmoid id cfgC2.concept_sigmoid_spacing cfgC2.n_samples cfgC2.n_drifts).2 cnC2
        = .ok sel0 ∧
      conceptSelectorTop id cfgC2 cnC2
        = .ok (conceptSelFinal cfgC2
            (sigmoid id cfgC2.concept_sigmoid_spacing cfgC2.n_samples cfgC2.n_drifts).1 sel0) ∧
      (∀ j p x,
        ((sigmoid id cfgC2.concept_sigmoid_spacing cfgC2.n_samples cfgC2.n_drifts).2).get? j = some p →
        cnC2.get? j = some x →
        sel0.get? j = some (if p < x then 1 else 0)) ∧
      (cfgC2.reocurring = false →
        ∀ i j v0, 1 ≤ i → i < cfgC2.n_drifts →
          i * (sigmoid id cfgC2.concept_sigmoid_spacing cfgC2.n_samples cfgC2.n_drifts).1 ≤ j →
          j < (i + 1) * (sigmoid id cfgC2.concept_sigmoid_spacing cfgC2.n_samples cfgC2.n_drifts).1 →
          sel0.get? j = some v0 →
          (conceptSelFinal cfgC2
              (sigmoid id cfgC2.concept_sigmoid_spacing cfgC2.n_samples cfgC2.n_drifts).1 sel0).get? j
            = some (if v0 = 1 then i + ((i + 1) % 2) else i + (i % 2))) ∧
      (∀ v ∈ conceptSelFinal cfgC2
          (sigmoid id cfgC2.concept_sigmoid_spacing cfgC2.n_samples cfgC2.n_drifts).1 sel0,
        v ≤ cfgC2.n_drifts)) := by
  have hd : 0 < cfgC2.n_drifts := by decide
  have hlen : ((sigmoid id cfgC2.concept_sigmoid_spacing cfgC2.n_samples cfgC2.n_drifts).2).length
      = cnC2.length := by
    show ((sigmoid id (some 10) 4 2).2).length = cnC2.length
    rw [show ((sigmoid id (some 10) 4 2).2) = (sigmoidRamps 10 2 2).map id from by
      simp [sigmoid]]
    rw [List.length_map, sigmoidRamps_length]
    rfl
  exact ⟨hd, hlen, concept_selector_construction id cfgC2 cnC2 hd hlen⟩

/-- C8: a reoccurring-drift configuration generates exactly 2 concepts (a
non-reoccurring one generates `n_drifts + 1`), and with `n_drifts > 0` and
reoccurring drift every concept-selector value stays in `{0, 1}` — the remap
loop is skipped. -/
theorem reocurring_two_concepts (cdf : ℚ → ℚ)
    (oracle : ℤ → List ℚ → List (List ℚ)) (cfg : StreamConfig) (cn : List ℚ) :
    (cfg.reocurring = true → (buildConcepts oracle cfg).length = 2) ∧
    (cfg.reocurring = false → (buildConcepts oracle cfg).length = cfg.n_drifts + 1) ∧
    (cfg.reocurring = true → 0 < cfg.n_drifts →
      ∀ sel, conceptSelectorTop cdf cfg cn = .ok sel →
        ∀ v ∈ sel, v = 0 ∨ v = 1) := by
  refine ⟨?_, ?_, ?_⟩
  · intro hre
    unfold buildConcepts
    rw [hre]
    simp only [if_true]
    rw [List.length_map, List.length_range]
  · intro hre
    unfold buildConcepts
    rw [hre]
    simp only [Bool.false_eq_true, if_false]
    rw [List.length_map, List.length_range]
  · intro hre _ sel hsel
    unfold conceptSelectorTop at hsel
    cases hinit : conceptSelInit
        (sigmoid cdf cfg.concept_sigmoid_spacing cfg.n_samples cfg.n_drifts).2 cn with
    | error e => rw [hinit] at hsel; exact absurd hsel (by simp)
    | ok s0 =>
      rw [hinit] at hsel
      simp only [Except.ok.injEq] at hsel
      subst hsel
      unfold conceptSelFinal
      rw [hre]
      simp only [if_true]
      exact conceptSelInit_binary _ _ _ hinit

/-- A concrete sampling oracle returning a fixed 2-feature, 2-sample matrix. -/
def oracleK : ℤ → List ℚ → List (List ℚ) := fun _ _ => [[0, 0], [0, 0]]

/-- A concrete reoccurring-drift configuration: 1 chunk of 2 samples, 1 drift. -/
def cfgC8 : StreamConfig :=
  { n_chunks := 1, chunk_size := 2, random_state := 0, n_drifts := 1,
    concept_sigmoid_spacing := none, n_classes := 2, reocurring := true,
    weights := none }

/-- Concrete concept noise for the C8 witness. -/
def cnC8 : List ℚ := [1/2, 1/2]

/-- C8 witness: at the concrete reoccurring configuration `cfgC8` the concept
count is 2 and the selector values are binary. -/
theorem reocurring_two_concepts_witness :
    (buildConcepts oracleK cfgC8).length = 2 ∧
    (∀ v ∈ conceptSelFinal cfgC8
        (sigmoid id cfgC8.concept_sigmoid_spacing cfgC8.n_samples cfgC8.n_drifts).1
        ((zipLtBool (sigmoid id cfgC8.concept_sigmoid_spacing cfgC8.n_samples cfgC8.n_drifts).2
          cnC8).map fun b => if b then 1 else 0),
      v = 0 ∨ v = 1) := by
  have hlen : ((sigmoid id cfgC8.concept_sigmoid_spacing cfgC8.n_samples cfgC8.n_drifts).2).length
      = cnC8.length := by
    show ((sigmoid id none 2 1).2).length = cnC8.length
    rw [show ((sigmoid id none 2 1).2) = (sigmoidRamps 9999 2 1).map id from by
      simp [sigmoid]]
    rw [List.length_map, sigmoidRamps_length]
    rfl
  have hsel : conceptSelectorTop id cfgC8 cnC8
      = .ok (conceptSelFinal cfgC8
          (sigmoid id cfgC8.concept_sigmoid_spacing cfgC8.n_samples cfgC8.n_drifts).1
          ((zipLtBool (sigmoid id cfgC8.concept_sigmoid_spacing cfgC8.n_samples cfgC8.n_drifts).2
            cnC8).map fun b => if b then 1 else 0)) := by
    unfold conceptSelectorTop
    rw [conceptSelInit_eq _ _ hlen]
  exact ⟨(reocurring_two_concepts id oracleK cfgC8 cnC8).1 rfl,
         (reocurring_two_concepts id oracleK cfgC8 cnC8).2.2 rfl (by decide) _ hsel⟩

/-- The cumulative sum of the first `i` weights. -/
def cumsum (ws : List ℚ) (i : ℕ) : ℚ :=
  ((ws.take i).foldl (· + ·) 0)

/-- The class index recorded by scanning the weights in ascending order with
a running accumulator, keeping the last index whose accumulated threshold is
exceeded by `x`; `dflt` when none is. -/
def lastExceed : List ℚ → ℚ → ℕ → ℚ → ℤ → ℤ
  | [], _, _, _, dflt => dflt
  | t :: ts, acc, i, x, dflt =>
      lastExceed ts (acc + t) (i + 1) x (if acc < x then (i : ℤ) else dflt)

/-- Pointwise description of one masked write. -/
theorem maskWrite_get? (acc : ℚ) (i : ℤ) :
    ∀ (bn : List ℚ) (sel : List ℤ) (j : ℕ) (x : ℚ) (d : ℤ),
      bn.get? j = some x → sel.get? j = some d →
      (maskWrite acc i bn sel).get? j = some (if acc < x then i else d) := by
  intro bn
  induction bn with
  | nil => intro sel j x d hx; simp at hx
  | cons q qs ih =>
    intro sel j x d hx hd
    cases sel with
    | nil => simp at hd
    | cons v vs =>
      cases j with
      | zero =>
        simp only [List.get?_cons_zero, Option.some.injEq] at hx hd
        subst hx; subst hd
        simp [maskWrite]
      | succ j =>
        simp only [List.get?_cons_succ] at hx hd
        simpa [maskWrite] using ih vs j x d hx hd

/-- `maskWrite` preserves length (on equal-length inputs it zips). -/
theorem maskWrite_length (acc : ℚ) (i : ℤ) :
    ∀ (bn : List ℚ) (sel : List ℤ), sel.length = bn.length →
      (maskWrite acc i bn sel).length = bn.length := by
  intro bn
  induction bn with
  | nil => intro sel _; cases sel <;> rfl
  | cons q qs ih =>
    intro sel h
    cases sel with
    | nil => simp at h
    | cons v vs =>
      simp only [maskWrite, List.length_cons]
      rw [ih vs (by simpa using h)]

/-- Folding addition from an arbitrary start. -/
theorem foldl_add_shift (l : List ℚ) : ∀ a : ℚ, l.foldl (· + ·) a = a + l.foldl (· + ·) 0 := by
  induction l with
  | nil => intro a; simp
  | cons t ts ih =>
    intro a
    simp only [List.foldl_cons]
    rw [ih (a + t), ih (0 + t)]
    ring

/-- `cumsum` at 0 is 0. -/
theorem cumsum_zero (ws : List ℚ) : cumsum ws 0 = 0 := rfl

/-- `cumsum` on a cons, successor index. -/
theorem cumsum_cons_succ (t : ℚ) (ts : List ℚ) (k : ℕ) :
    cumsum (t :: ts) (k + 1) = t + cumsum ts k := by
  unfold cumsum
  rw [List.take_succ_cons, List.foldl_cons, foldl_add_shift]
  rw [show (0 : ℚ) + t = t from by ring]

/-- Pointwise description of the static balance loop. -/
theorem staticLoop_get? (bn : List ℚ) :
    ∀ (ws : List ℚ) (acc : ℚ) (i : ℕ) (sel : List ℤ) (j : ℕ) (x : ℚ) (d : ℤ),
      bn.get? j = some x → sel.get? j = some d → sel.length = bn.length →
      (staticLoop bn acc i ws sel).get? j = some (lastExceed ws acc i x d) := by
  intro ws
  induction ws with
  | nil =>
    intro acc i sel j x d _ hd _
    simpa [staticLoop, lastExceed] using hd
  | cons t ts ih =>
    intro acc i sel j x d hx hd hlen
    show (staticLoop bn (acc + t) (i + 1) ts (maskWrite acc i bn sel)).get? j = _
    rw [ih (acc + t) (i + 1) (maskWrite acc i bn sel) j x (if acc < x then (i : ℤ) else d)
      hx (maskWrite_get? acc i bn sel j x d hx hd) (maskWrite_length acc i bn sel hlen)]
    rfl

/-- When no accumulated threshold is exceeded, the scan keeps the default. -/
theorem lastExceed_none (x : ℚ) :
    ∀ (ws : List ℚ) (acc : ℚ) (i : ℕ) (dflt : ℤ),
      (∀ k, k < ws.length → ¬ (acc + cumsum ws k < x)) →
      lastExceed ws acc i x dflt = dflt := by
  intro ws
  induction ws with
  | nil => intro acc i dflt _; rfl
  | cons t ts ih =>
    intro acc i dflt h
    show lastExceed ts (acc + t) (i + 1) x (if acc < x then (i : ℤ) else dflt) = dflt
    have h0 : ¬ acc < x := by
      have := h 0 (by simp)
      rwa [cumsum_zero, add_zero] at this
    rw [if_neg h0]
    apply ih
    intro k hk hcon
    exact h (k + 1) (by simpa using Nat.succ_lt_succ hk)
      (by rwa [cumsum_cons_succ, ← add_assoc])

/-- When the greatest exceeded index is `k`, the scan returns `i + k`. -/
theorem lastExceed_greatest (x : ℚ) :
    ∀ (ws : List ℚ) (k : ℕ) (acc : ℚ) (i : ℕ) (dflt : ℤ),
      k < ws.length → acc + cumsum ws k < x →
      (∀ k', k < k' → k' < ws.length → ¬ (acc + cumsum ws k' < x)) →
      lastExceed ws acc i x dflt = ((i + k : ℕ) : ℤ) := by
  intro ws
  induction ws with
  | nil => intro k acc i dflt hk; exact absurd hk (by simp)
  | cons t ts ih =>
    intro k acc i dflt hk hlt hmax
    show lastExceed ts (acc + t) (i + 1) x (if acc < x then (i : ℤ) else dflt) = _
    cases k with
    | zero =>
      rw [cumsum_zero, add_zero] at hlt
      rw [if_pos hlt]
      rw [lastExceed_none x ts (acc + t) (i + 1) (i : ℤ) (by
        intro k'' hk'' hcon
        exact hmax (k'' + 1) (by omega) (by simpa using Nat.succ_lt_succ hk'')
          (by rwa [cumsum_cons_succ, ← add_assoc]))]
      simp
    | succ k' =>
      rw [cumsum_cons_succ, ← add_assoc] at hlt
      rw [ih k' (acc + t) (i + 1) (if acc < x then (i : ℤ) else dflt)
        (by simpa using Nat.lt_of_succ_lt_succ hk) hlt (by
          intro k'' hk'' hk''len hcon
          exact hmax (k'' + 1) (by omega) (by simpa using Nat.succ_lt_succ hk''len)
            (by rwa [cumsum_cons_succ, ← add_assoc]))]
      congr 1
      omega

/-- C7: in static weighted balance mode the selector at sample `j` is the
largest class index `i` whose cumulative threshold `cumsum ws i` (the sum of
`weights[0..i-1]`) is exceeded by `noise[j]`, with class 0 as the default
when no threshold is exceeded (`Nat.findGreatest` is exactly this: the
largest satisfying index, or 0). -/
theorem static_weights_largest_index (bn ws : List ℚ) (j : ℕ) (x : ℚ)
    (hx : bn.get? j = some x) :
    (classSelectorStatic bn ws).get? j =
      some ((Nat.findGreatest (fun i => i < ws.length ∧ cumsum ws i < x) ws.length : ℕ) : ℤ) := by
  have hj : j < bn.length := by
    rcases List.get?_eq_some.1 hx with ⟨h, -⟩
    exact h
  have hzero : (List.replicate bn.length (0 : ℤ)).get? j = some 0 := by
    rw [List.get?_eq_getElem?, List.getElem?_replicate_of_lt hj]
  rw [classSelectorStatic,
    staticLoop_get? bn ws 0 0 _ j x 0 hx hzero (by rw [List.length_replicate])]
  congr 1
  by_cases hex : ∃ k, k < ws.length ∧ cumsum ws k < x
  · obtain ⟨k, hk, hklt⟩ := hex
    set P : ℕ → Prop := fun i => i < ws.length ∧ cumsum ws i < x with hP
    have hPk : P (Nat.findGreatest P ws.length) :=
      Nat.findGreatest_spec (le_of_lt hk) ⟨hk, hklt⟩
    have := lastExceed_greatest x ws (Nat.findGreatest P ws.length) 0 0 0
      hPk.1 (by rw [zero_add]; exact hPk.2) (by
        intro k' hgt hlen hcon
        rw [zero_add] at hcon
        exact Nat.findGreatest_is_greatest hgt (le_of_lt hlen) ⟨hlen, hcon⟩)
    rw [this]
    simp
  · rw [lastExceed_none x ws 0 0 0 (by
      intro k hk hcon
      rw [zero_add] at hcon
      exact hex ⟨k, hk, hcon⟩)]
    have : Nat.findGreatest (fun i => i < ws.length ∧ cumsum ws i < x) ws.length = 0 := by
      rw [Nat.findGreatest_eq_iff]
      refine ⟨Nat.zero_le _, by simp, ?_⟩
      intro n _ hn hPn
      exact hex ⟨n, hPn.1, hPn.2⟩
    rw [this]
    rfl

/-- C7 witness: weights `[1/2, 1/4, 1/4]` and noise `7/10` select class 1
(the largest index whose cumulative threshold `1/2` is below `7/10`). -/
theorem static_weights_largest_index_witness :
    ([(7 : ℚ)/10]).get? 0 = some (7/10) ∧
    (classSelectorStatic [7/10] [1/2, 1/4, 1/4]).get? 0 = some 1 := by
  refine ⟨rfl, ?_⟩
  rw [static_weights_largest_index [7/10] [1/2, 1/4, 1/4] 0 (7/10) rfl]
  norm_num [Nat.findGreatest, cumsum]

/-- Complete description of the generator's call sequence once the stream
materialises and at least one chunk exists: after the `k`-th call (0-indexed)
`chunk_id = k`, `current_chunk` holds the last produced slice, and the output
is slice `k` while `k < n_chunks` and the end marker afterwards. -/
theorem runGet_spec (cdf : ℚ → ℚ) (oracle : ℤ → List ℚ → List (List ℚ))
    (cfg : StreamConfig) (cn bn : List ℚ) (m : MatData)
    (hm : materialize cdf oracle cfg cn bn = .ok m)
    (hn : 1 ≤ cfg.n_chunks) :
    ∀ k : ℕ, runGet cdf oracle cfg cn bn k =
      .ok (GenState.ready m (k : ℤ)
            (if k = 0 then none
             else some (sliceChunk cfg m ((min (k - 1) (cfg.n_chunks - 1) : ℕ) : ℤ)))
            (some (sliceChunk cfg m ((min k (cfg.n_chunks - 1) : ℕ) : ℤ))),
           if k < cfg.n_chunks then some (sliceChunk cfg m ((k : ℕ) : ℤ)) else none) := by
  intro k
  induction k with
  | zero =>
    show getChunk cdf oracle cfg cn bn .fresh = _
    have hpos : ((-1 : ℤ) + 1) < (cfg.n_chunks : ℤ) := by
      have : (1 : ℤ) ≤ (cfg.n_chunks : ℤ) := by exact_mod_cast hn
      omega
    simp only [getChunk, hm]
    rw [if_pos hpos]
    simp only [Except.ok.injEq, Prod.mk.injEq, GenState.ready.injEq]
    refine ⟨⟨trivial, by norm_num, ?_, ?_⟩, ?_⟩
    · simp
    · rw [show ((min 0 (cfg.n_chunks - 1) : ℕ) : ℤ) = (-1 : ℤ) + 1 from by
        rw [Nat.min_eq_left (Nat.zero_le _)]; norm_num]
    · rw [if_pos (by omega : 0 < cfg.n_chunks)]
      rw [show (((0 : ℕ) : ℕ) : ℤ) = (-1 : ℤ) + 1 from by norm_num]
  | succ k ih =>
    show (match runGet cdf oracle cfg cn bn k with
          | Except.error e => (Except.error e : Except Unit (GenState × Option Chunk))
          | Except.ok (s, _) => getChunk cdf oracle cfg cn bn s) = _
    rw [ih]
    show getChunk cdf oracle cfg cn bn _ = _
    simp only [getChunk]
    by_cases hk : k + 1 < cfg.n_chunks
    · rw [if_pos (by exact_mod_cast hk : ((k : ℤ) + 1) < (cfg.n_chunks : ℤ))]
      simp only [Except.ok.injEq, Prod.mk.injEq, GenState.ready.injEq]
      have hmin1 : min (k + 1) (cfg.n_chunks - 1) = k + 1 := by omega
      have hmin2 : min (k + 1 - 1) (cfg.n_chunks - 1) = min k (cfg.n_chunks - 1) := by omega
      refine ⟨⟨trivial, by push_cast; ring, ?_, ?_⟩, ?_⟩
      · rw [if_neg (by omega : ¬ k + 1 = 0), hmin2]
      · rw [hmin1]
        norm_num
      · rw [if_pos hk]
        norm_num
    · rw [if_neg (by
        intro hcon
        exact hk (by exact_mod_cast hcon))]
      simp only [Except.ok.injEq, Prod.mk.injEq, GenState.ready.injEq]
      have hmin1 : min (k + 1) (cfg.n_chunks - 1) = min k (cfg.n_chunks - 1) := by omega
      have hmin2 : min (k + 1 - 1) (cfg.n_chunks - 1) = min k (cfg.n_chunks - 1) := by omega
      refine ⟨⟨trivial, by push_cast; ring, ?_, ?_⟩, ?_⟩
      · rw [if_neg (by omega : ¬ k + 1 = 0), hmin2]
      · rw [hmin1]
      · rw [if_neg (by omega : ¬ k + 1 < cfg.n_chunks)]

/-- C4: on any configuration that materialises and has at least one chunk,
the first `n_chunks` calls return chunks and every later call returns the
end marker `None`, stably. -/
theorem stream_exhaustion_end_marker (cdf : ℚ → ℚ)
    (oracle : ℤ → List ℚ → List (List ℚ)) (cfg : StreamConfig) (cn bn : List ℚ)
    (m : MatData)
    (hm : materialize cdf oracle cfg cn bn = .ok m)
    (hn : 1 ≤ cfg.n_chunks) :
    (∀ k, k < cfg.n_chunks →
      ∃ s c, runGet cdf oracle cfg cn bn k = .ok (s, some c)) ∧
    (∀ k, cfg.n_chunks ≤ k →
      ∃ s, runGet cdf oracle cfg cn bn k = .ok (s, none)) := by
  constructor
  · intro k hk
    refine ⟨GenState.ready m (k : ℤ)
        (if k = 0 then none
         else some (sliceChunk cfg m ((min (k - 1) (cfg.n_chunks - 1) : ℕ) : ℤ)))
        (some (sliceChunk cfg m ((min k (cfg.n_chunks - 1) : ℕ) : ℤ))),
      sliceChunk cfg m ((k : ℕ) : ℤ), ?_⟩
    rw [runGet_spec cdf oracle cfg cn bn m hm hn k, if_pos hk]
  · intro k hk
    refine ⟨GenState.ready m (k : ℤ)
        (if k = 0 then none
         else some (sliceChunk cfg m ((min (k - 1) (cfg.n_chunks - 1) : ℕ) : ℤ)))
        (some (sliceChunk cfg m ((min k (cfg.n_chunks - 1) : ℕ) : ℤ))), ?_⟩
    rw [runGet_spec cdf oracle cfg cn bn m hm hn k, if_neg (show ¬ k < cfg.n_chunks from by omega)]

/-- C5: `is_dry()` is false before the first call; after `k + 1` successful
calls (`chunk_id = k`), it is true exactly when `chunk_id + 1 ≥ n_chunks`,
so it first becomes true at the last chunk of the stream. -/
theorem is_dry_contract (cdf : ℚ → ℚ)
    (oracle : ℤ → List ℚ → List (List ℚ)) (cfg : StreamConfig) (cn bn : List ℚ)
    (m : MatData)
    (hm : materialize cdf oracle cfg cn bn = .ok m)
    (hn : 1 ≤ cfg.n_chunks) :
    isDry cfg GenState.fresh = false ∧
    (∀ k, k < cfg.n_chunks →
      ∃ s c, runGet cdf oracle cfg cn bn k = .ok (s, some c) ∧
        (isDry cfg s = true ↔ cfg.n_chunks ≤ k + 1)) := by
  refine ⟨rfl, ?_⟩
  intro k hk
  refine ⟨GenState.ready m (k : ℤ)
        (if k = 0 then none
         else some (sliceChunk cfg m ((min (k - 1) (cfg.n_chunks - 1) : ℕ) : ℤ)))
        (some (sliceChunk cfg m ((min k (cfg.n_chunks - 1) : ℕ) : ℤ))),
    sliceChunk cfg m ((k : ℕ) : ℤ), ?_, ?_⟩
  · rw [runGet_spec cdf oracle cfg cn bn m hm hn k, if_pos hk]
  · show decide ((cfg.n_chunks : ℤ) ≤ (k : ℤ) + 1) = true ↔ cfg.n_chunks ≤ k + 1
    rw [decide_eq_true_eq]
    omega

/-- A concrete sampling oracle with 2 features and 4 samples. -/
def oracleW : ℤ → List ℚ → List (List ℚ) := fun _ _ => [[0, 0, 0, 0], [0, 0, 0, 0]]

/-- A concrete stationary configuration: 2 chunks of 2 samples, no drift. -/
def cfgW : StreamConfig :=
  { n_chunks := 2, chunk_size := 2, random_state := 0, n_drifts := 0,
    concept_sigmoid_spacing := none, n_classes := 2, reocurring := false,
    weights := none }

/-- Concrete balance noise for the stationary configuration. -/
def bnW : List ℚ := [1/8, 3/8, 5/8, 7/8]

/-- The stream materialised by `cfgW`. -/
def mW : MatData := { X := [[0, 0], [0, 0], [0, 0], [0, 0]], y := [0, 0, 1, 1] }

/-- `cfgW` materialises to `mW`. -/
theorem materialize_cfgW : materialize id oracleW cfgW [0, 0, 0, 0] bnW = .ok mW := by
  norm_num [materialize, rectOk, rectDims, buildConcepts, oneHot, selStage,
    classSelector, truncInt, classSelectorStatic, assembleStage, chooseX, bLen, bIdx,
    cfgW, oracleW, bnW, mW, StreamConfig.n_samples, List.range_succ]

/-- C4 witness: on the concrete stationary configuration, the second call
returns a chunk and the third returns the end marker. -/
theorem stream_exhaustion_end_marker_witness :
    (∃ s c, runGet id oracleW cfgW [0, 0, 0, 0] bnW 1 = .ok (s, some c)) ∧
    (∃ s, runGet id oracleW cfgW [0, 0, 0, 0] bnW 2 = .ok (s, none)) :=
  ⟨(stream_exhaustion_end_marker id oracleW cfgW [0, 0, 0, 0] bnW mW
      materialize_cfgW (by decide)).1 1 (by decide),
   (stream_exhaustion_end_marker id oracleW cfgW [0, 0, 0, 0] bnW mW
      materialize_cfgW (by decide)).2 2 (by decide)⟩

/-- C5 witness: on the concrete stationary configuration `is_dry` is false
before any call, and after the second (last) chunk it flips to true. -/
theorem is_dry_contract_witness :
    isDry cfgW GenState.fresh = false ∧
    (∃ s c, runGet id oracleW cfgW [0, 0, 0, 0] bnW 1 = .ok (s, some c) ∧
      (isDry cfgW s = true ↔ cfgW.n_chunks ≤ 1 + 1)) :=
  ⟨(is_dry_contract id oracleW cfgW [0, 0, 0, 0] bnW mW materialize_cfgW (by decide)).1,
   (is_dry_contract id oracleW cfgW [0, 0, 0, 0] bnW mW materialize_cfgW (by decide)).2
     1 (by decide)⟩

/-- Inversion of a successful materialisation: the labels are exactly the
class selector. -/
theorem materialize_ok_y (cdf : ℚ → ℚ) (oracle : ℤ → List ℚ → List (List ℚ))
    (cfg : StreamConfig) (cn bn : List ℚ) (m : MatData)
    (hm : materialize cdf oracle cfg cn bn = .ok m) :
    classSelector cdf cfg bn = .ok m.y := by
  unfold materialize at hm
  cases hr : rectOk (buildConcepts oracle cfg) with
  | false =>
    rw [hr] at hm
    simp at hm
  | true =>
    rw [hr] at hm
    rw [if_pos rfl] at hm
    split at hm
    · exact absurd hm (by simp)
    next selOpt hsel =>
      split at hm
      · exact absurd hm (by simp)
      next clsSel hcls =>
        split at hm
        · exact absurd hm (by simp)
        next c3 hasm =>
          split at hm
          · exact absurd hm (by simp)
          next X0 hx =>
            simp only [Except.ok.injEq] at hm
            subst hm
            exact hcls

/-- The weights preconditions of the label-range claim: unset, a fixed
sequence of `n_classes` non-negative thresholds, or a 3-tuple with exactly
two classes. -/
def weightsOK (cfg : StreamConfig) : Prop :=
  match cfg.weights with
  | none => True
  | some (.inl ws) => ws.length = cfg.n_classes ∧ ∀ w ∈ ws, 0 ≤ w
  | some (.inr _) => cfg.n_classes = 2

/-- The scanned class index is the default or one of the scanned positions. -/
theorem lastExceed_mem (x : ℚ) :
    ∀ (ws : List ℚ) (acc : ℚ) (i : ℕ) (dflt : ℤ),
      lastExceed ws acc i x dflt = dflt ∨
      ∃ k, k < ws.length ∧ lastExceed ws acc i x dflt = ((i + k : ℕ) : ℤ) := by
  intro ws
  induction ws with
  | nil => intro acc i dflt; exact Or.inl rfl
  | cons t ts ih =>
    intro acc i dflt
    have heq : lastExceed (t :: ts) acc i x dflt
        = lastExceed ts (acc + t) (i + 1) x (if acc < x then (i : ℤ) else dflt) := rfl
    rcases ih (acc + t) (i + 1) (if acc < x then (i : ℤ) else dflt) with h | ⟨k, hk, h⟩
    · by_cases hcmp : acc < x
      · refine Or.inr ⟨0, by simp, ?_⟩
        rw [heq, h, if_pos hcmp]
        norm_num
      · refine Or.inl ?_
        rw [heq, h, if_neg hcmp]
    · refine Or.inr ⟨k + 1, by simpa using Nat.succ_lt_succ hk, ?_⟩
      rw [heq, h]
      congr 1
      omega

/-- The static loop preserves the length of the selector. -/
theorem staticLoop_length (bn : List ℚ) :
    ∀ (ws : List ℚ) (acc : ℚ) (i : ℕ) (sel : List ℤ), sel.length = bn.length →
      (staticLoop bn acc i ws sel).length = bn.length := by
  intro ws
  induction ws with
  | nil => intro acc i sel h; exact h
  | cons t ts ih =>
    intro acc i sel h
    exact ih (acc + t) (i + 1) (maskWrite acc i bn sel)
      (maskWrite_length acc i bn sel h)

/-- Every label the class selector produces lies in `[0, n_classes)` under
the weights preconditions, for noise drawn from `[0, 1)`. -/
theorem classSelector_range (cdf : ℚ → ℚ) (cfg : StreamConfig) (bn : List ℚ)
    (cs : List ℤ)
    (hw : weightsOK cfg) (hcls : 1 ≤ cfg.n_classes)
    (hbn : ∀ x ∈ bn, 0 ≤ x ∧ x < 1)
    (h : classSelector cdf cfg bn = .ok cs) :
    ∀ l ∈ cs, 0 ≤ l ∧ l < (cfg.n_classes : ℤ) := by
  intro l hl
  unfold classSelector at h
  unfold weightsOK at hw
  cases hwm : cfg.weights with
  | none =>
    rw [hwm] at h
    simp only [Except.ok.injEq] at h
    subst h
    obtain ⟨x, hx, rfl⟩ := List.mem_map.1 hl
    have hx0 := (hbn x hx).1
    have hx1 := (hbn x hx).2
    have hnq : (0 : ℚ) < (cfg.n_classes : ℚ) := by exact_mod_cast hcls
    have hxn : 0 ≤ x * (cfg.n_classes : ℚ) := mul_nonneg hx0 (le_of_lt hnq)
    unfold truncInt
    rw [if_pos hxn]
    constructor
    · exact Int.le_floor.mpr (by exact_mod_cast hxn)
    · apply Int.floor_lt.mpr
      calc x * (cfg.n_classes : ℚ) < 1 * (cfg.n_classes : ℚ) :=
            mul_lt_mul_of_pos_right hx1 hnq
        _ = ((cfg.n_classes : ℤ) : ℚ) := by push_cast; ring
  | some w =>
    cases w with
    | inl ws =>
      rw [hwm] at h hw
      simp only [Except.ok.injEq] at h
      subst h
      obtain ⟨j, hj⟩ := List.mem_iff_get?.1 hl
      have hjlen : j < bn.length := by
        have := List.get?_eq_some.1 hj
        rcases this with ⟨hlt, -⟩
        rw [classSelectorStatic] at hlt
        rwa [staticLoop_length bn ws 0 0 _ (by rw [List.length_replicate])] at hlt
      obtain ⟨x, hx⟩ : ∃ x, bn.get? j = some x :=
        ⟨bn.get ⟨j, hjlen⟩, List.get?_eq_get hjlen⟩
      rw [classSelectorStatic,
        staticLoop_get? bn ws 0 0 _ j x 0 hx
          (by rw [List.get?_eq_getElem?,
                List.getElem?_replicate_of_lt hjlen])
          (by rw [List.length_replicate])] at hj
      simp only [Option.some.injEq] at hj
      rcases lastExceed_mem x ws 0 0 0 with hmem | ⟨k, hk, hmem⟩ <;> rw [hmem] at hj <;> subst hj
      · constructor
        · omega
        · exact_mod_cast hcls
      · constructor
        · positivity
        · have : k < cfg.n_classes := by omega
          exact_mod_cast (by simpa using this : (0 : ℕ) + k < cfg.n_classes)
    | inr tup =>
      rw [hwm] at h hw
      obtain ⟨nbd, sp, amp⟩ := tup
      dsimp only at h hw
      cases hb : bcastLt (((sigmoid cdf sp cfg.n_samples nbd).2).map (ampCorrect amp)) bn with
      | none => rw [hb] at h; exact absurd h (by simp)
      | some bs =>
        rw [hb] at h
        simp only [Except.ok.injEq] at h
        subst h
        obtain ⟨b, hbmem, rfl⟩ := List.mem_map.1 hl
        rw [hw]
        cases b <;> simp

/-- C6: every successful `get_chunk()` call returns integer labels that are
exactly the class (balance) selector restricted to the chunk's sample range,
and each lies in `[0, n_classes)`, under the stated weights preconditions. -/
theorem label_range_invariant (cdf : ℚ → ℚ) (oracle : ℤ → List ℚ → List (List ℚ))
    (cfg : StreamConfig) (cn bn : List ℚ) (m : MatData)
    (hm : materialize cdf oracle cfg cn bn = .ok m)
    (hn : 1 ≤ cfg.n_chunks) (hcls : 1 ≤ cfg.n_classes)
    (hw : weightsOK cfg) (hbn : ∀ x ∈ bn, 0 ≤ x ∧ x < 1) :
    classSelector cdf cfg bn = .ok m.y ∧
    ∀ k, k < cfg.n_chunks →
      ∃ s Xc, runGet cdf oracle cfg cn bn k
          = .ok (s, some (Xc, (m.y.drop (cfg.chunk_size * k)).take cfg.chunk_size)) ∧
        ∀ l ∈ (m.y.drop (cfg.chunk_size * k)).take cfg.chunk_size,
          0 ≤ l ∧ l < (cfg.n_classes : ℤ) := by
  have hsel := materialize_ok_y cdf oracle cfg cn bn m hm
  refine ⟨hsel, ?_⟩
  intro k hk
  refine ⟨GenState.ready m (k : ℤ)
      (if k = 0 then none
       else some (sliceChunk cfg m ((min (k - 1) (cfg.n_chunks - 1) : ℕ) : ℤ)))
      (some (sliceChunk cfg m ((min k (cfg.n_chunks - 1) : ℕ) : ℤ))),
    (m.X.drop (cfg.chunk_size * k)).take cfg.chunk_size, ?_, ?_⟩
  · rw [runGet_spec cdf oracle cfg cn bn m hm hn k, if_pos hk]
    unfold sliceChunk
    simp only [Int.toNat_natCast]
  · intro l hl
    exact classSelector_range cdf cfg bn m.y hw hcls hbn hsel l
      (List.drop_subset _ _ (List.take_subset _ _ hl))

/-- C6 witness: on the concrete stationary configuration the first chunk's
labels are the first two class-selector values and lie in `[0, 2)`. -/
theorem label_range_invariant_witness :
    classSelector id cfgW bnW = .ok mW.y ∧
    (∃ s Xc, runGet id oracleW cfgW [0, 0, 0, 0] bnW 0
        = .ok (s, some (Xc, (mW.y.drop (cfgW.chunk_size * 0)).take cfgW.chunk_size)) ∧
      ∀ l ∈ (mW.y.drop (cfgW.chunk_size * 0)).take cfgW.chunk_size,
        0 ≤ l ∧ l < (cfgW.n_classes : ℤ)) := by
  have h := label_range_invariant id oracleW cfgW [0, 0, 0, 0] bnW mW
    materialize_cfgW (by decide) (by decide) (by trivial)
    (by
      intro x hx
      fin_cases hx <;> norm_num [bnW])
  exact ⟨h.1, h.2 0 (by decide)⟩

/-- A stationary one-chunk configuration with two samples. -/
def cfgC1 : StreamConfig :=
  { n_chunks := 1, chunk_size := 2, random_state := 1410, n_drifts := 0,
    concept_sigmoid_spacing := none, n_classes := 2, reocurring := false,
    weights := none }

/-- `cfgC1` with the first ambient balance-noise draw. -/
theorem materialize_cfgC1_a :
    materialize id oracleK cfgC1 [0, 0] [1/4, 1/4]
      = .ok { X := [[0, 0], [0, 0]], y := [0, 0] } := by
  norm_num [materialize, rectOk, rectDims, buildConcepts, oneHot, selStage,
    classSelector, truncInt, assembleStage, chooseX, bLen, bIdx,
    cfgC1, oracleK, StreamConfig.n_samples, List.range_succ]

/-- `cfgC1` with the second ambient balance-noise draw. -/
theorem materialize_cfgC1_b :
    materialize id oracleK cfgC1 [0, 0] [3/4, 1/4]
      = .ok { X := [[0, 0], [0, 0]], y := [1, 0] } := by
  norm_num [materialize, rectOk, rectDims, buildConcepts, oneHot, selStage,
    classSelector, truncInt, assembleStage, chooseX, bLen, bIdx,
    cfgC1, oracleK, StreamConfig.n_samples, List.range_succ]

/-- C1 (code bug): two generators constructed with identical parameters
(`cfgC1`, including `random_state`) do not produce identical chunks, because
the concept and balance noise are drawn from the global numpy RNG, not from
`random_state`.  The two balance-noise vectors below are both valid
`np.random.rand` outputs (all entries in `[0, 1)`), as happens when the
second generator's draw follows the first's in the same session, and the
resulting first chunks differ. -/
theorem global_rng_breaks_reproducibility :
    (∀ x ∈ [(1 : ℚ)/4, 1/4], 0 ≤ x ∧ x < 1) ∧
    (∀ x ∈ [(3 : ℚ)/4, 1/4], 0 ≤ x ∧ x < 1) ∧
    runGet id oracleK cfgC1 [0, 0] [1/4, 1/4] 0
      ≠ runGet id oracleK cfgC1 [0, 0] [3/4, 1/4] 0 := by
  refine ⟨by intro x hx; fin_cases hx <;> norm_num,
          by intro x hx; fin_cases hx <;> norm_num, ?_⟩
  have h1 : runGet id oracleK cfgC1 [0, 0] [1/4, 1/4] 0
      = .ok (GenState.ready { X := [[0, 0], [0, 0]], y := [0, 0] } (-1 + 1) none
              (some ([[0, 0], [0, 0]], [0, 0])),
             some ([[0, 0], [0, 0]], [0, 0])) := by
    show getChunk id oracleK cfgC1 [0, 0] [1/4, 1/4] GenState.fresh = _
    simp only [getChunk, materialize_cfgC1_a]
    norm_num [sliceChunk, cfgC1]
  have h2 : runGet id oracleK cfgC1 [0, 0] [3/4, 1/4] 0
      = .ok (GenState.ready { X := [[0, 0], [0, 0]], y := [1, 0] } (-1 + 1) none
              (some ([[0, 0], [0, 0]], [1, 0])),
             some ([[0, 0], [0, 0]], [1, 0])) := by
    show getChunk id oracleK cfgC1 [0, 0] [3/4, 1/4] GenState.fresh = _
    simp only [getChunk, materialize_cfgC1_b]
    norm_num [sliceChunk, cfgC1]
  rw [h1, h2]
  intro hcon
  simp at hcon

/-- The broadcast comparison fails exactly when neither shape matches nor is
of size 1. -/
theorem bcastLt_none (a b : List ℚ) (h1 : a.length ≠ b.length)
    (h2 : a.length ≠ 1) (h3 : b.length ≠ 1) : bcastLt a b = none := by
  unfold bcastLt
  rw [if_neg h1]
  cases a with
  | nil =>
    cases b with
    | nil => simp at h1
    | cons y ys =>
      cases ys with
      | nil => simp at h3
      | cons z zs => rfl
  | cons x xs =>
    cases xs with
    | nil => simp at h2
    | cons w ws =>
      cases b with
      | nil => rfl
      | cons y ys =>
        cases ys with
        | nil => simp at h3
        | cons z zs => rfl

/-- C10 amended: when `n_drifts > 0` does not divide
`n_samples = n_chunks * chunk_size` and the stream holds at least 2 samples,
the first `get_chunk()` call fails (the truncated probability sequence
cannot be broadcast against the noise array) and returns no chunk. -/
theorem shape_mismatch_amended (cdf : ℚ → ℚ)
    (oracle : ℤ → List ℚ → List (List ℚ)) (cfg : StreamConfig) (cn bn : List ℚ)
    (hcn : cn.length = cfg.n_samples)
    (hd : 0 < cfg.n_drifts)
    (hndvd : ¬ (cfg.n_drifts ∣ cfg.n_samples))
    (hns : 2 ≤ cfg.n_samples) :
    runGet cdf oracle cfg cn bn 0 = .error () := by
  have hprobs_len :
      ((sigmoid cdf cfg.concept_sigmoid_spacing cfg.n_samples cfg.n_drifts).2).length
        = cfg.n_drifts * (cfg.n_samples / cfg.n_drifts) := by
    simp only [sigmoid, if_pos hd]
    rw [List.length_map, sigmoidRamps_length]
  have hne : cfg.n_drifts * (cfg.n_samples / cfg.n_drifts) ≠ cfg.n_samples := by
    intro hcon
    exact hndvd ⟨cfg.n_samples / cfg.n_drifts, hcon.symm⟩
  have hne1 : cfg.n_drifts * (cfg.n_samples / cfg.n_drifts) ≠ 1 := by
    intro hcon
    have hone : cfg.n_drifts = 1 := Nat.eq_one_of_mul_eq_one_right hcon
    exact hndvd (hone ▸ one_dvd _)
  have hbc : bcastLt
      (sigmoid cdf cfg.concept_sigmoid_spacing cfg.n_samples cfg.n_drifts).2 cn = none :=
    bcastLt_none _ _ (by rw [hprobs_len, hcn]; exact hne)
      (by rw [hprobs_len]; exact hne1) (by rw [hcn]; omega)
  have htop : conceptSelectorTop cdf cfg cn = .error () := by
    unfold conceptSelectorTop conceptSelInit
    rw [hbc]
  have hstage : selStage cdf cfg cn = .error () := by
    unfold selStage
    rw [if_pos hd, htop]
  have hmat : materialize cdf oracle cfg cn bn = .error () := by
    unfold materialize
    cases hr : rectOk (buildConcepts oracle cfg) with
    | false => rw [if_neg (by simp)]
    | true =>
      rw [if_pos rfl, hstage]
  show getChunk cdf oracle cfg cn bn GenState.fresh = .error ()
  simp only [getChunk, hmat]

/-- A configuration with 2 drifts on a 5-sample stream. -/
def cfgN5 : StreamConfig :=
  { n_chunks := 1, chunk_size := 5, random_state := 1410, n_drifts := 2,
    concept_sigmoid_spacing := none, n_classes := 2, reocurring := false,
    weights := none }

/-- C10 amended witness: 2 drifts on a 5-sample stream (`2 ∤ 5`). -/
theorem shape_mismatch_amended_witness :
    ([(0 : ℚ), 0, 0, 0, 0].length = cfgN5.n_samples) ∧ 0 < cfgN5.n_drifts ∧
    ¬ (cfgN5.n_drifts ∣ cfgN5.n_samples) ∧ 2 ≤ cfgN5.n_samples ∧
    runGet id oracleK cfgN5 [0, 0, 0, 0, 0] [] 0 = .error () :=
  ⟨by decide, by decide, by decide, by decide,
   shape_mismatch_amended id oracleK cfgN5 [0, 0, 0, 0, 0] [] (by decide) (by decide)
     (by decide) (by decide)⟩

/-- A degenerate configuration with a single sample and 2 drifts. -/
def cfgDeg : StreamConfig :=
  { n_chunks := 1, chunk_size := 1, random_state := 1410, n_drifts := 2,
    concept_sigmoid_spacing := none, n_classes := 2, reocurring := false,
    weights := none }

/-- A concrete sampling oracle with 2 features and a single sample. -/
def oracleS1 : ℤ → List ℚ → List (List ℚ) := fun _ _ => [[0], [0]]

/-- C10 counterexample: at `n_chunks = chunk_size = 1` with `n_drifts = 2`
(which does not divide the single sample), the length-0 probability sequence
broadcasts against the length-1 noise array instead of failing, and the
first call returns a degenerate chunk with an empty feature array rather
than an error. -/
theorem shape_mismatch_claim_false :
    0 < cfgDeg.n_drifts ∧
    ¬ (cfgDeg.n_drifts ∣ cfgDeg.n_chunks * cfgDeg.chunk_size) ∧
    runGet id oracleS1 cfgDeg [1/2] [1/4] 0
      = .ok (GenState.ready { X := [], y := [0] } (-1 + 1) none (some ([], [0])),
             some ([], [0])) := by
  refine ⟨by decide, by decide, ?_⟩
  have hmat : materialize id oracleS1 cfgDeg [1/2] [1/4]
      = .ok { X := [], y := [0] } := by
    norm_num [materialize, rectOk, rectDims, buildConcepts, oneHot, selStage,
      conceptSelectorTop, conceptSelInit, conceptSelFinal, remapPass, mapWithIdx,
      bcastLt, zipLtBool, sigmoid, sigmoidRamps, npLinspace, classSelector,
      truncInt, assembleStage, chooseConcepts, chooseX, bLen, bIdx,
      cfgDeg, oracleS1, StreamConfig.n_samples, List.range_succ, List.range'_succ]
  show getChunk id oracleS1 cfgDeg [1/2] [1/4] GenState.fresh = _
  simp only [getChunk, hmat]
  norm_num [sliceChunk, cfgDeg]
